import Mathlib

/-
Verification of the renterd-mirror pipeline (src/cmd/mirror/main.go and the
earlier revision fragment src/unnamed/part_000) against its specification.

The Go code is shallowly embedded: uint64 arithmetic is natural-number
arithmetic reduced modulo 2 ^ 64, float64 values are modelled as the exact
rationals they represent together with an explicit round-to-nearest-even
operation at 53 significant bits, streams are lists of bytes, and the
concurrent parts of the pipeline are small labelled transition systems.
-/

namespace Mirror

/-- uint64 arithmetic wraps modulo 2 ^ 64. -/
def u64 (n : ℕ) : ℕ := n % 2 ^ 64

/-- rhp2.SectorSize, the fixed sector constant of the destination network:
1 shifted left by 22, that is 4 MiB. -/
def sectorSize : ℕ := 4194304

/-- a listed source object, from the AWS listing collaborator
(awstypes.Object: Key and Size). Sizes reported by the listing are
non-negative, so the size is modelled as a natural number. -/
structure SrcObject where
  key : String
  size : ℕ
deriving DecidableEq

/-- the listing loop of main.go (lines 255 to 267): for every page returned by
the paginator, for every object of the page, send the object to the upload
queue. The loop consults nothing before enqueueing; in particular no
existence check against the destination is performed. -/
def producerEnqueues (pages : List (List SrcObject)) : List SrcObject :=
  pages.foldl (fun acc page => page.foldl (fun acc2 o => acc2 ++ [o]) acc) []

/-- Modelled from the spec (section 4.6), for comparison with the code: a
producer that calls the existence checker on each listed object and enqueues
only the objects that are not already Present on the destination. -/
def producerEnqueuesChecked (present : SrcObject → Bool) (pages : List (List SrcObject)) :
    List SrcObject :=
  pages.flatten.filter (fun o => !(present o))

/-- the configuration bundle a destination ingest call can carry. Modelled
from the spec (section 6): contract-set selector and minimum and total shard
counts; api.UploadObjectOptions is an external renterd type and a field left
at its zero value supplies nothing. -/
structure UploadObjectOptions where
  minShards : Option ℤ
  totalShards : Option ℤ
  contractSet : Option String
deriving DecidableEq

/-- main.go line 96: uploadObject invokes workerClient.UploadObject with the
literal empty options value api.UploadObjectOptions, so none of the
configured values is supplied with the call. -/
def mainUploadOptions : UploadObjectOptions := ⟨none, none, none⟩

/-- the PUT request built by workerUploadObject in src/unnamed/part_000
(lines 13 to 23): method, URL path, and the three query parameters
contractset, minshards and totalshards. -/
structure WorkerUploadRequest where
  method : String
  path : String
  contractset : String
  minshards : String
  totalshards : String

/-- workerUploadObject from src/unnamed/part_000: builds a PUT request to
workerAddr/objects/name and sets the query parameters contractset,
minshards and totalshards from its arguments, the integers rendered in
decimal by strconv.Itoa. -/
def workerUploadObject (workerAddr name contractSet : String)
    (minShards totalShards : ℤ) : WorkerUploadRequest :=
  ⟨"PUT", workerAddr ++ "/objects/" ++ name, contractSet,
    toString minShards, toString totalShards⟩

/-- the four global progress counters of main.go (line 188):
uploadedBytes, redundantBytes, totalBytes, uploadedObjects. -/
structure Counters where
  uploadedBytes : ℕ
  redundantBytes : ℕ
  totalBytes : ℕ
  uploadedObjects : ℕ
deriving DecidableEq

/-- one atomic counter mutation. Every mutation of the four counters in
main.go is one of the four atomic.AddUint64 calls at lines 243 to 246, each
adding a non-negative unsigned quantity. -/
inductive CEvent
  | addUploadedBytes (n : ℕ)
  | addUploadedObjects
  | addTotalBytes (n : ℕ)
  | addRedundantBytes (n : ℕ)
deriving DecidableEq

/-- effect of one atomic.AddUint64 call on the counters (uint64 addition
wraps modulo 2 ^ 64). -/
def applyEvent (c : Counters) : CEvent → Counters
  | .addUploadedBytes n => { c with uploadedBytes := u64 (c.uploadedBytes + n) }
  | .addUploadedObjects => { c with uploadedObjects := u64 (c.uploadedObjects + 1) }
  | .addTotalBytes n => { c with totalBytes := u64 (c.totalBytes + n) }
  | .addRedundantBytes n => { c with redundantBytes := u64 (c.redundantBytes + n) }

/-- the counters after a sequence of atomic additions. -/
def runEvents (c : Counters) (es : List CEvent) : Counters :=
  es.foldl applyEvent c

/-- sum of the quantities a sequence of events adds to uploadedBytes. -/
def sumUB : List CEvent → ℕ
  | [] => 0
  | .addUploadedBytes n :: es => n + sumUB es
  | .addUploadedObjects :: es => sumUB es
  | .addTotalBytes _ :: es => sumUB es
  | .addRedundantBytes _ :: es => sumUB es

/-- sum of the quantities a sequence of events adds to redundantBytes. -/
def sumRB : List CEvent → ℕ
  | [] => 0
  | .addRedundantBytes n :: es => n + sumRB es
  | .addUploadedBytes _ :: es => sumRB es
  | .addUploadedObjects :: es => sumRB es
  | .addTotalBytes _ :: es => sumRB es

/-- sum of the quantities a sequence of events adds to totalBytes. -/
def sumTB : List CEvent → ℕ
  | [] => 0
  | .addTotalBytes n :: es => n + sumTB es
  | .addUploadedBytes _ :: es => sumTB es
  | .addUploadedObjects :: es => sumTB es
  | .addRedundantBytes _ :: es => sumTB es

/-- number of events of a sequence that add 1 to uploadedObjects. -/
def sumUO : List CEvent → ℕ
  | [] => 0
  | .addUploadedObjects :: es => 1 + sumUO es
  | .addUploadedBytes _ :: es => sumUO es
  | .addTotalBytes _ :: es => sumUO es
  | .addRedundantBytes _ :: es => sumUO es

/-
The binary64 (Go float64) model. A float64 value is modelled as the exact
rational it denotes. Rounding a positive real to the nearest representable
value with 53 significant bits, ties to even, is made explicit; conversions
of uint64 values and correctly rounded division (the only float operations
redundantSize performs, all staying far inside the normal range, so neither
subnormals nor overflow to infinity can occur) are expressed with it.
-/

/-- bit length of a natural number, computed with explicit recursion fuel;
bitlenAux f n is the bit length of n whenever n < 2 ^ f. -/
def bitlenAux : ℕ → ℕ → ℕ
  | 0, _ => 0
  | f + 1, n => if n = 0 then 0 else bitlenAux f (n / 2) + 1

/-- bit length of a uint64-ranged natural number. -/
def bitlen (n : ℕ) : ℕ := bitlenAux 64 n

/-- 2 ^ g as a rational, for an integer exponent g. -/
def pow2 (g : ℤ) : ℚ :=
  if 0 ≤ g then ((2 ^ g.toNat : ℕ) : ℚ) else 1 / ((2 ^ (-g).toNat : ℕ) : ℚ)

/-- floor of the base-2 logarithm of a positive rational whose numerator and
denominator are uint64-ranged. -/
def flog2 (q : ℚ) : ℤ :=
  let g : ℤ := (bitlen q.num.natAbs : ℤ) - (bitlen q.den : ℤ)
  if pow2 g ≤ q then g else g - 1

/-- round a rational to the nearest integer, ties to even (the IEEE-754
default rounding direction). -/
def rne (q : ℚ) : ℤ :=
  if q - (⌊q⌋ : ℚ) < 1 / 2 then ⌊q⌋
  else if 1 / 2 < q - (⌊q⌋ : ℚ) then ⌊q⌋ + 1
  else if 2 ∣ ⌊q⌋ then ⌊q⌋ else ⌊q⌋ + 1

/-- round a non-negative rational in the normal binary64 range to the nearest
representable binary64 value: scale into [2 ^ 52, 2 ^ 53), round to the
nearest integer significand with ties to even, scale back. This is the value
Go produces for the conversion float64(x) of a uint64 x and for a correctly
rounded float64 division of exact operands. -/
def roundF64 (q : ℚ) : ℚ :=
  if q ≤ 0 then 0
  else (rne (q * pow2 (52 - flog2 q)) : ℚ) * pow2 (flog2 q - 52)

/-- redundantSize from main.go lines 106 to 108:
uint64(math.Ceil(float64(size)/float64(uint64(minShards)*rhp2.SectorSize)))
multiplied by uint64(totalShards) and by rhp2.SectorSize in uint64
arithmetic. The two conversions to float64 and the float64 division each
round to nearest; math.Ceil is exact on binary64 values (the ceiling of a
representable value is representable), and the conversion of the non-negative
integral result back to uint64 is exact in the range the claims quantify
over. -/
def redundantSize (size minShards totalShards : ℕ) : ℕ :=
  u64 ((⌈roundF64 (roundF64 (size : ℚ) /
    roundF64 ((u64 (minShards * sectorSize) : ℕ) : ℚ))⌉).toNat *
    totalShards * sectorSize)

/-- the exact formula of the spec (section 4.1), in exact integer
arithmetic: the ceiling of size divided by minShards times sectorSize,
multiplied by totalShards and sectorSize. Stated from the words of the spec
for comparison against redundantSize. -/
def redundantSizeExact (size minShards totalShards : ℕ) : ℕ :=
  ((size + minShards * sectorSize - 1) / (minShards * sectorSize)) *
    totalShards * sectorSize

/-- two-decimal fixed-point rendering of a non-negative rational, modelling
the fmt verb used for the speed value (the rounding of the float formatter is
idealized to exact arithmetic; no claim depends on the rendered digits). -/
def fmt2 (q : ℚ) : String :=
  let c : ℤ := ⌊q * 100 + 1 / 2⌋
  let i : ℤ := c / 100
  let f : ℕ := (c % 100).toNat
  toString i ++ "." ++ (if f < 10 then "0" else "") ++ toString f

/-- the unit-scaling tail of formatBpsString (main.go lines 60 to 68): if the
speed is below 1000 it is printed as plain bps; otherwise the loop dividing
speed by 1000 while it is at least 1000 runs Nat.log 1000 (floor speed)
times, leaving the speed divided by 1000 to that power, and the unit
character is units[i] with i one less than the number of divisions. The
result is none exactly where the Go code would index the units constant out
of range; claim C7 includes that this never happens. -/
def bpsUnits (sp : ℚ) : Option String :=
  if sp < 1000 then some (fmt2 sp ++ " bps")
  else
    match "KMGTPE".toList.get? (Nat.log 1000 (Int.toNat ⌊sp⌋) - 1) with
    | some c =>
      some (fmt2 (sp / 1000 ^ Nat.log 1000 (Int.toNat ⌊sp⌋)) ++ " " ++
        String.mk [c] ++ "bps")
    | none => none

/-- formatBpsString from main.go lines 47 to 69. A Go time.Duration is an
int64 count of nanoseconds; Truncate(time.Second) rounds it toward zero to a
whole second, and Seconds() of that truncated duration is the integer number
of whole seconds, so the zero guard compares Int.tdiv t 1000000000 with
zero. The speed is b*8 in uint64 arithmetic divided by the whole seconds. -/
def formatBpsString (b : ℕ) (t : ℤ) : Option String :=
  if Int.tdiv t 1000000000 ≤ 0 then some "0.00 bps"
  else bpsUnits ((u64 (b * 8) : ℚ) / ((Int.tdiv t 1000000000 : ℤ) : ℚ))

/-- the zero value of a Go [32]byte checksum, returned on every failed
attempt of uploadObject. -/
def zeroChecksum : List ℕ := List.replicate 32 0

/-- state of io.TeeReader(content.Body, h): the bytes of the source stream
not yet read, and the bytes already written into the sha256 accumulator. -/
structure TeeState where
  remaining : List ℕ
  hashed : List ℕ
deriving DecidableEq

/-- one read of at most n bytes from the tee: the bytes handed to the caller
are exactly the bytes appended to the hash accumulator. -/
def teeRead (s : TeeState) (n : ℕ) : List ℕ × TeeState :=
  (s.remaining.take n, ⟨s.remaining.drop n, s.hashed ++ s.remaining.take n⟩)

/-- the destination ingest call reading the buffered tee stream to EOF in
chunks of up to bufio buffer size (256 MiB); the fuel argument bounds the
number of reads and s.remaining.length always suffices because every
non-final read consumes at least one byte. -/
def readAllAux : ℕ → TeeState → List ℕ × TeeState
  | 0, s => ([], s)
  | f + 1, s =>
    if s.remaining = [] then ([], s)
    else
      let p := teeRead s (256 * 2 ^ 20)
      let r := readAllAux f p.2
      (p.1 ++ r.1, r.2)

/-- read the whole tee stream to EOF. -/
def readAll (s : TeeState) : List ℕ × TeeState :=
  readAllAux s.remaining.length s

/-- uploadObject from main.go lines 88 to 104. The sha256 state is the
digest function applied to the bytes the accumulator received; getOk models
the source GetObject call and ingestOk the destination UploadObject call (on
success the ingest consumes the stream to EOF, spec section 6). On either
failure the function returns the zero checksum and an error; only on success
does it finalize the digest. -/
def uploadObject (digest : List ℕ → List ℕ) (getOk ingestOk : Bool)
    (content : List ℕ) : List ℕ × Option String :=
  if !getOk then (zeroChecksum, some "failed to get object")
  else
    let r := readAll ⟨content, []⟩
    if !ingestOk then (zeroChecksum, some "failed to upload")
    else (digest r.2.hashed, none)

/-- backoff sleep in milliseconds after failed attempt j of the worker retry
loop (main.go lines 230 to 234):
time.Duration(math.Pow(2+frand.Float64(), float64(j))) in milliseconds,
capped at one minute. u is the uniform [0,1) draw of this attempt; the
float64 power is modelled by exact rational arithmetic and the conversion to
time.Duration truncates the non-negative value toward zero. -/
def sleepMs (j : ℕ) (u : ℚ) : ℤ :=
  min 60000 ⌊(2 + u) ^ j⌋

/-- the unbounded retry loop of the worker (main.go lines 229 to 237):
attempt j yields a checksum and an optional error; on an error the worker
sleeps sleepMs j (jitter j) and retries, and the loop exits only when an
attempt succeeds. The fuel argument only bounds how far the model unfolds
the unbounded loop: none means every attempt within fuel failed and the loop
is still running. On success the result carries the checksum of the
successful attempt and the sleeps performed, in order. -/
def retryLoop (attempts : ℕ → List ℕ × Option String) (jitter : ℕ → ℚ) :
    ℕ → ℕ → Option (List ℕ × List ℤ)
  | 0, _ => none
  | fuel + 1, j =>
    match attempts j with
    | (ck, none) => some (ck, [])
    | (_, some _) =>
      Option.map (fun p => (p.1, sleepMs j (jitter j) :: p.2))
        (retryLoop attempts jitter fuel (j + 1))

/-- worker handling of one dequeued object (main.go lines 224 to 248): run
the retry loop; the four counter additions of lines 243 to 246 execute only
after the loop has exited, that is only once some attempt has succeeded.
size is uint64(obj.Size) and the two redundant counters receive the
redundantSize of the object. -/
def processObject (attempts : ℕ → List ℕ × Option String) (jitter : ℕ → ℚ)
    (fuel size m t : ℕ) (c : Counters) : Counters :=
  match retryLoop attempts jitter fuel 0 with
  | none => c
  | some _ =>
    runEvents c [CEvent.addUploadedBytes size, CEvent.addUploadedObjects,
      CEvent.addTotalBytes (redundantSize size m t),
      CEvent.addRedundantBytes (redundantSize size m t)]

/-- producer and worker-pool state: number of objects sitting in the
uploadQueue channel buffer and number of objects currently held by a worker.
main.go line 187 creates the channel with capacity threads and lines 222 to
251 run threads workers, each handling one object at a time. -/
structure PoolState where
  queued : ℕ
  busy : ℕ
deriving DecidableEq

/-- the pipeline transitions with queue capacity C and worker count N:
the producer can place an object in the buffer only while the buffer holds
fewer than C objects (a send on a full buffered channel blocks, main.go line
265); an idle worker (fewer than N busy) can take a buffered object; a busy
worker can finish its object. -/
inductive PoolStep (C N : ℕ) : PoolState → PoolState → Prop
  | enqueue (s : PoolState) (h : s.queued < C) : PoolStep C N s ⟨s.queued + 1, s.busy⟩
  | dequeue (s : PoolState) (hq : 0 < s.queued) (hb : s.busy < N) :
      PoolStep C N s ⟨s.queued - 1, s.busy + 1⟩
  | finish (s : PoolState) (h : 0 < s.busy) : PoolStep C N s ⟨s.queued, s.busy - 1⟩

/-- pipeline states reachable from the initial state (empty queue, all
workers idle). -/
def PoolReachable (C N : ℕ) (s : PoolState) : Prop :=
  Relation.ReflTransGen (PoolStep C N) ⟨0, 0⟩ s

/-- fine-grained state of the two redundant-byte counters and the throttled
logger of main.go. pending lists, per worker currently between line 245 and
line 246, the redundantSize value already added to totalBytes but not yet to
redundantBytes; lg holds the redundantBytes value the logger loaded at line
194 until it loads totalBytes at line 195; logged collects the
(redundantBytes field, totalBytes field) pairs of emitted progress lines.
Counter values are modelled as naturals; uint64 wraparound is treated by
claim C8 and does not affect the equalities compared here. -/
structure TBState where
  tb : ℕ
  rb : ℕ
  pending : List ℕ
  lg : Option ℕ
  logged : List (ℕ × ℕ)

/-- the interleaved atomic operations touching totalBytes and redundantBytes
with at most W workers: a worker adds r to totalBytes (line 245, entering
the window), then adds the same r to redundantBytes (line 246, leaving the
window); the logger loads redundantBytes (line 194) and then totalBytes
(line 195) as two separate atomic loads and emits the pair. -/
inductive TBStep (W : ℕ) : TBState → TBState → Prop
  | addTB (s : TBState) (r : ℕ) (h : s.pending.length < W) :
      TBStep W s ⟨s.tb + r, s.rb, r :: s.pending, s.lg, s.logged⟩
  | addRB (s : TBState) (r : ℕ) (h : r ∈ s.pending) :
      TBStep W s ⟨s.tb, s.rb + r, s.pending.erase r, s.lg, s.logged⟩
  | loadRB (s : TBState) (h : s.lg = none) :
      TBStep W s ⟨s.tb, s.rb, s.pending, some s.rb, s.logged⟩
  | loadTB (s : TBState) (v : ℕ) (h : s.lg = some v) :
      TBStep W s ⟨s.tb, s.rb, s.pending, none, (v, s.tb) :: s.logged⟩

/-- counter and logger states reachable from the start of the run (all
counters zero, no log emitted). -/
def TBReachable (W : ℕ) (s : TBState) : Prop :=
  Relation.ReflTransGen (TBStep W) ⟨0, 0, [], none, []⟩ s

/-
Helper lemmas about the binary64 model.
-/

theorem bitlenAux_eq (f : ℕ) : ∀ n : ℕ, n < 2 ^ f → 0 < n →
    bitlenAux f n = Nat.log 2 n + 1 := by
  induction f with
  | zero => intro n h h0; omega
  | succ f ih =>
    intro n h h0
    rw [bitlenAux, if_neg (by omega)]
    by_cases h2 : n = 1
    · subst h2
      have hz : bitlenAux f 0 = 0 := by cases f <;> rfl
      norm_num [hz]
    · have h2' : 2 ≤ n := by omega
      have hdiv : n / 2 < 2 ^ f := by
        rw [Nat.div_lt_iff_lt_mul (by norm_num)]
        calc n < 2 ^ (f + 1) := h
        _ = 2 ^ f * 2 := by ring
      have h0' : 0 < n / 2 := Nat.div_pos h2' (by norm_num)
      rw [ih _ hdiv h0']
      have hlb : Nat.log 2 (n / 2) = Nat.log 2 n - 1 := Nat.log_div_base 2 n
      have hpos : 0 < Nat.log 2 n := Nat.log_pos (by norm_num) h2'
      omega

theorem bitlen_eq (n : ℕ) (h : n < 2 ^ 64) (h0 : 0 < n) :
    bitlen n = Nat.log 2 n + 1 :=
  bitlenAux_eq 64 n h h0

theorem pow2_eq_zpow (g : ℤ) : pow2 g = (2 : ℚ) ^ g := by
  rw [pow2]
  by_cases h : 0 ≤ g
  · rw [if_pos h]
    push_cast
    rw [← zpow_natCast (2 : ℚ) g.toNat, Int.toNat_of_nonneg h]
  · rw [if_neg h]
    push_cast
    rw [← zpow_natCast (2 : ℚ) (-g).toNat, Int.toNat_of_nonneg (by omega),
      zpow_neg, one_div, inv_inv]

theorem pow2_pos (g : ℤ) : 0 < pow2 g := by
  rw [pow2_eq_zpow]
  positivity

theorem flog2_spec (q : ℚ) (h0 : 0 < q) (hn : q.num.natAbs < 2 ^ 64)
    (hd : q.den < 2 ^ 64) :
    (2 : ℚ) ^ flog2 q ≤ q ∧ q < (2 : ℚ) ^ (flog2 q + 1) := by
  have hnum : 0 < q.num := Rat.num_pos.mpr h0
  have ha0 : 0 < q.num.natAbs := Int.natAbs_pos.mpr hnum.ne'
  have hb0 : 0 < q.den := q.pos
  set a := q.num.natAbs with ha
  set b := q.den with hb
  have hq : q = (a : ℚ) / (b : ℚ) := by
    have h1 : ((a : ℤ) : ℚ) = (q.num : ℚ) := by
      rw [ha, Int.natAbs_of_nonneg hnum.le]
    have h2 : (a : ℚ) = (q.num : ℚ) := by push_cast at h1 ⊢; exact h1
    rw [h2, hb, Rat.num_div_den q]
  set la := Nat.log 2 a with hla
  set lb := Nat.log 2 b with hlb
  have pa1 : 2 ^ la ≤ a := Nat.pow_log_le_self 2 ha0.ne'
  have pa2 : a < 2 ^ (la + 1) := Nat.lt_pow_succ_log_self (by norm_num) a
  have pb1 : 2 ^ lb ≤ b := Nat.pow_log_le_self 2 hb0.ne'
  have pb2 : b < 2 ^ (lb + 1) := Nat.lt_pow_succ_log_self (by norm_num) b
  have qa1 : (2 : ℚ) ^ (la : ℤ) ≤ (a : ℚ) := by
    rw [zpow_natCast]; exact_mod_cast pa1
  have qa2 : (a : ℚ) < (2 : ℚ) ^ ((la : ℤ) + 1) := by
    rw [show (la : ℤ) + 1 = ((la + 1 : ℕ) : ℤ) by push_cast; ring, zpow_natCast]
    exact_mod_cast pa2
  have qb1 : (2 : ℚ) ^ (lb : ℤ) ≤ (b : ℚ) := by
    rw [zpow_natCast]; exact_mod_cast pb1
  have qb2 : (b : ℚ) < (2 : ℚ) ^ ((lb : ℤ) + 1) := by
    rw [show (lb : ℤ) + 1 = ((lb + 1 : ℕ) : ℤ) by push_cast; ring, zpow_natCast]
    exact_mod_cast pb2
  have hA0 : (0 : ℚ) ≤ (a : ℚ) := by positivity
  have hB0 : (0 : ℚ) < (b : ℚ) := by exact_mod_cast hb0
  have hlow : (2 : ℚ) ^ ((la : ℤ) - lb - 1) ≤ q := by
    have h1 : (2 : ℚ) ^ ((la : ℤ) - lb - 1) =
        (2 : ℚ) ^ (la : ℤ) / (2 : ℚ) ^ ((lb : ℤ) + 1) := by
      rw [← zpow_sub₀ (by norm_num : (2 : ℚ) ≠ 0)]; ring_nf
    rw [h1, hq]
    exact div_le_div₀ hA0 qa1 (by positivity) qb2.le
  have hupp : q < (2 : ℚ) ^ ((la : ℤ) - lb + 1) := by
    have h1 : (2 : ℚ) ^ ((la : ℤ) - lb + 1) =
        (2 : ℚ) ^ ((la : ℤ) + 1) / (2 : ℚ) ^ (lb : ℤ) := by
      rw [← zpow_sub₀ (by norm_num : (2 : ℚ) ≠ 0)]; ring_nf
    rw [h1, hq]
    exact div_lt_div₀ qa2 qb1 (by positivity) (by positivity)
  have hblen_a : bitlen a = la + 1 := bitlen_eq a hn ha0
  have hblen_b : bitlen b = lb + 1 := bitlen_eq b hd hb0
  have hg : (bitlen a : ℤ) - (bitlen b : ℤ) = (la : ℤ) - lb := by
    rw [hblen_a, hblen_b]; push_cast; ring
  rw [flog2]
  simp only [← ha, ← hb, hg]
  by_cases hc : pow2 ((la : ℤ) - lb) ≤ q
  · rw [if_pos hc]
    rw [pow2_eq_zpow] at hc
    exact ⟨hc, hupp⟩
  · rw [if_neg hc]
    rw [pow2_eq_zpow] at hc
    constructor
    · rw [show (la : ℤ) - lb - 1 = (la : ℤ) - lb - 1 from rfl] at hlow
      exact hlow
    · rw [show (la : ℤ) - lb - 1 + 1 = (la : ℤ) - lb by ring]
      exact lt_of_not_le hc

theorem flog2_eq (q : ℚ) (h0 : 0 < q) (hn : q.num.natAbs < 2 ^ 64)
    (hd : q.den < 2 ^ 64) (e : ℤ) (h1 : (2 : ℚ) ^ e ≤ q)
    (h2 : q < (2 : ℚ) ^ (e + 1)) : flog2 q = e := by
  obtain ⟨l1, l2⟩ := flog2_spec q h0 hn hd
  by_contra hne
  rcases lt_or_gt_of_ne hne with h | h
  · have : (2 : ℚ) ^ (flog2 q + 1) ≤ (2 : ℚ) ^ e :=
      zpow_le_zpow_right₀ (by norm_num) (by omega)
    linarith
  · have : (2 : ℚ) ^ (e + 1) ≤ (2 : ℚ) ^ flog2 q :=
      zpow_le_zpow_right₀ (by norm_num) (by omega)
    linarith

theorem rne_sub_abs (q : ℚ) : |(rne q : ℚ) - q| ≤ 1 / 2 := by
  have hf1 : (⌊q⌋ : ℚ) ≤ q := Int.floor_le q
  have hf2 : q < (⌊q⌋ : ℚ) + 1 := Int.lt_floor_add_one q
  rw [rne]
  by_cases hc1 : q - (⌊q⌋ : ℚ) < 1 / 2
  · rw [if_pos hc1, abs_sub_comm, abs_of_nonneg (by linarith)]
    linarith
  · rw [if_neg hc1]
    by_cases hc2 : 1 / 2 < q - (⌊q⌋ : ℚ)
    · rw [if_pos hc2]
      push_cast
      rw [abs_of_nonneg (by linarith)]
      linarith
    · rw [if_neg hc2]
      have heq : q - (⌊q⌋ : ℚ) = 1 / 2 := le_antisymm (not_lt.mp hc2) (not_lt.mp hc1)
      by_cases hc3 : 2 ∣ ⌊q⌋
      · rw [if_pos hc3, abs_sub_comm, abs_of_nonneg (by linarith)]
        linarith
      · rw [if_neg hc3]
        push_cast
        rw [abs_of_nonneg (by linarith)]
        linarith

theorem rne_intCast (n : ℤ) : rne (n : ℚ) = n := by
  rw [rne]
  norm_num

theorem roundF64_natCast (n : ℕ) (h : n < 2 ^ 53) : roundF64 (n : ℚ) = n := by
  rcases Nat.eq_zero_or_pos n with h0 | h0
  · subst h0
    norm_num [roundF64]
  · have hq0 : (0 : ℚ) < (n : ℚ) := by exact_mod_cast h0
    rw [roundF64, if_neg (not_le.mpr hq0)]
    have hn : ((n : ℚ)).num.natAbs < 2 ^ 64 := by
      rw [Rat.num_natCast]
      simpa using lt_trans h (by norm_num)
    have hd : ((n : ℚ)).den < 2 ^ 64 := by
      rw [Rat.den_natCast]
      norm_num
    obtain ⟨l1, l2⟩ := flog2_spec (n : ℚ) hq0 hn hd
    have hcast53 : ((n : ℚ)) < (2 : ℚ) ^ (53 : ℤ) := by
      rw [show (53 : ℤ) = ((53 : ℕ) : ℤ) from rfl, zpow_natCast]
      exact_mod_cast h
    have hle : flog2 (n : ℚ) ≤ 52 := by
      by_contra hgt
      push_neg at hgt
      have : (2 : ℚ) ^ (53 : ℤ) ≤ (2 : ℚ) ^ flog2 (n : ℚ) :=
        zpow_le_zpow_right₀ (by norm_num) (by omega)
      linarith
    set L := flog2 (n : ℚ) with hL
    set k := (52 - L).toNat with hk
    have hkeq : (k : ℤ) = 52 - L := Int.toNat_of_nonneg (by omega)
    have h1 : (n : ℚ) * pow2 (52 - L) = ((n * 2 ^ k : ℕ) : ℚ) := by
      rw [pow2_eq_zpow, ← hkeq, zpow_natCast]
      push_cast
      ring
    rw [h1]
    have h2 : rne ((n * 2 ^ k : ℕ) : ℚ) = ((n * 2 ^ k : ℕ) : ℤ) := by
      rw [show (((n * 2 ^ k : ℕ)) : ℚ) = (((n * 2 ^ k : ℕ) : ℤ) : ℚ) by push_cast; ring]
      exact rne_intCast _
    rw [h2, pow2_eq_zpow, show L - 52 = -(52 - L) by ring, zpow_neg, ← hkeq,
      zpow_natCast]
    push_cast
    rw [mul_assoc, mul_inv_cancel₀ (by positivity), mul_one]

theorem roundF64_sub_abs (q : ℚ) (h0 : 0 < q) :
    |roundF64 q - q| ≤ (2 : ℚ) ^ (flog2 q - 53) := by
  rw [roundF64, if_neg (not_le.mpr h0)]
  set L := flog2 q with hL
  set x := q * pow2 (52 - L) with hx
  have hqe : q = x * pow2 (L - 52) := by
    rw [hx, pow2_eq_zpow, pow2_eq_zpow, mul_assoc,
      ← zpow_add₀ (by norm_num : (2 : ℚ) ≠ 0)]
    norm_num
  calc |(rne x : ℚ) * pow2 (L - 52) - q|
      = |(rne x : ℚ) - x| * pow2 (L - 52) := by
        nth_rewrite 1 [hqe]
        rw [← sub_mul, abs_mul, abs_of_pos (pow2_pos _)]
    _ ≤ (1 / 2) * pow2 (L - 52) :=
        mul_le_mul_of_nonneg_right (rne_sub_abs _) (pow2_pos _).le
    _ = (2 : ℚ) ^ (L - 53) := by
        rw [pow2_eq_zpow, show L - 53 = -1 + (L - 52) by ring,
          zpow_add₀ (by norm_num : (2 : ℚ) ≠ 0)]
        norm_num

theorem ceil_roundF64_div (S d : ℕ) (hd0 : 0 < d) (hd : d < 2 ^ 64)
    (hS : S < 2 ^ 53) :
    ⌈roundF64 ((S : ℚ) / (d : ℚ))⌉ = ⌈(S : ℚ) / (d : ℚ)⌉ := by
  rcases Nat.eq_zero_or_pos S with h0 | h0
  · subst h0
    norm_num [roundF64]
  set q := (S : ℚ) / (d : ℚ) with hqdef
  have hdq0 : (0 : ℚ) < (d : ℚ) := by exact_mod_cast hd0
  have hSq0 : (0 : ℚ) < (S : ℚ) := by exact_mod_cast h0
  have hq0 : 0 < q := by rw [hqdef]; positivity
  have hdivInt : Rat.divInt (S : ℤ) (d : ℤ) = q := by
    rw [Rat.divInt_eq_div, hqdef]
    push_cast
    rfl
  have hnum_dvd : q.num ∣ (S : ℤ) := by
    rw [← hdivInt]
    exact Rat.num_dvd _ (by exact_mod_cast hd0.ne')
  have hden_dvd : ((q.den : ℤ)) ∣ (d : ℤ) := by
    rw [← hdivInt]
    exact Rat.den_dvd _ _
  have hnum_le : q.num.natAbs ≤ S := by
    have h1 : ((q.num.natAbs : ℤ)) ∣ (S : ℤ) := Int.natAbs_dvd.mpr hnum_dvd
    have h2 := Int.le_of_dvd (by exact_mod_cast h0) h1
    exact_mod_cast h2
  have hden_le : q.den ≤ d := Nat.le_of_dvd hd0 (by exact_mod_cast hden_dvd)
  have hn64 : q.num.natAbs < 2 ^ 64 := lt_of_le_of_lt hnum_le (lt_trans hS (by norm_num))
  have hd64 : q.den < 2 ^ 64 := lt_of_le_of_lt hden_le hd
  have herr := roundF64_sub_abs q hq0
  obtain ⟨hfl1, hfl2⟩ := flog2_spec q hq0 hn64 hd64
  have hq_lt : q < (2 : ℚ) ^ (53 : ℤ) / (d : ℚ) := by
    rw [hqdef, div_lt_div_right hdq0]
    rw [show (53 : ℤ) = ((53 : ℕ) : ℤ) from rfl, zpow_natCast]
    exact_mod_cast hS
  have hulp_lt : (2 : ℚ) ^ (flog2 q - 53) < 1 / (d : ℚ) := by
    have h1 : (2 : ℚ) ^ (flog2 q - 53) =
        (2 : ℚ) ^ flog2 q / (2 : ℚ) ^ (53 : ℤ) := by
      rw [← zpow_sub₀ (by norm_num : (2 : ℚ) ≠ 0)]
    have hp53 : (0 : ℚ) < (2 : ℚ) ^ (53 : ℤ) := by positivity
    have h2 : (2 : ℚ) ^ flog2 q / (2 : ℚ) ^ (53 : ℤ) ≤ q / (2 : ℚ) ^ (53 : ℤ) :=
      (div_le_div_right hp53).mpr hfl1
    have h3 : q / (2 : ℚ) ^ (53 : ℤ) < ((2 : ℚ) ^ (53 : ℤ) / (d : ℚ)) / (2 : ℚ) ^ (53 : ℤ) :=
      (div_lt_div_right hp53).mpr hq_lt
    have h4 : ((2 : ℚ) ^ (53 : ℤ) / (d : ℚ)) / (2 : ℚ) ^ (53 : ℤ) = 1 / (d : ℚ) := by
      rw [div_div, mul_comm, ← div_div, div_self hp53.ne']
    rw [h1]
    linarith
  have hqd : q * (d : ℚ) = (S : ℚ) := by
    rw [hqdef]
    field_simp
  rcases eq_or_lt_of_le (Int.le_ceil q) with hceq | hclt
  · have hcpos : 0 < ⌈q⌉ := Int.ceil_pos.mpr hq0
    have hq_le_S : q ≤ (S : ℚ) := by
      rw [hqdef]
      exact div_le_self hSq0.le (by exact_mod_cast hd0)
    have hlt53 : ⌈q⌉.toNat < 2 ^ 53 := by
      have h1 : ((⌈q⌉ : ℚ)) ≤ (S : ℚ) := by rw [← hceq]; exact hq_le_S
      have h2 : ⌈q⌉ ≤ (S : ℤ) := by exact_mod_cast h1
      omega
    have hcnat : q = ((⌈q⌉.toNat : ℕ) : ℚ) := by
      have h5 : ((⌈q⌉.toNat : ℕ) : ℤ) = ⌈q⌉ := Int.toNat_of_nonneg hcpos.le
      have h6 : ((⌈q⌉.toNat : ℕ) : ℚ) = ((⌈q⌉ : ℤ) : ℚ) := by exact_mod_cast h5
      rw [h6, ← hceq]
    rw [hcnat, roundF64_natCast _ hlt53]
  · set c := ⌈q⌉ with hc
    have h2 : ((c : ℚ)) - 1 < q := by
      have := Int.ceil_lt_add_one q
      rw [← hc] at this
      linarith
    have hSlt : (S : ℚ) < (c : ℚ) * (d : ℚ) := by
      have := mul_lt_mul_of_pos_right hclt hdq0
      rw [hqd] at this
      exact this
    have hSgt : ((c : ℚ) - 1) * (d : ℚ) < (S : ℚ) := by
      have := mul_lt_mul_of_pos_right h2 hdq0
      rw [hqd] at this
      exact this
    have hSle' : (S : ℤ) + 1 ≤ c * (d : ℤ) := by
      have h3 : (S : ℤ) < c * (d : ℤ) := by exact_mod_cast hSlt
      omega
    have hSge' : (c - 1) * (d : ℤ) + 1 ≤ (S : ℤ) := by
      have h3 : (c - 1) * (d : ℤ) < (S : ℤ) := by exact_mod_cast hSgt
      omega
    have hql : q ≤ (c : ℚ) - 1 / (d : ℚ) := by
      rw [hqdef, div_le_iff hdq0]
      have hcast : (S : ℚ) + 1 ≤ (c : ℚ) * (d : ℚ) := by exact_mod_cast hSle'
      have hexp : ((c : ℚ) - 1 / (d : ℚ)) * (d : ℚ) = (c : ℚ) * (d : ℚ) - 1 := by
        field_simp
      rw [hexp]
      linarith
    have hqg : (c : ℚ) - 1 + 1 / (d : ℚ) ≤ q := by
      rw [hqdef, le_div_iff hdq0]
      have hcast : ((c : ℚ) - 1) * (d : ℚ) + 1 ≤ (S : ℚ) := by exact_mod_cast hSge'
      have hexp : ((c : ℚ) - 1 + 1 / (d : ℚ)) * (d : ℚ) = ((c : ℚ) - 1) * (d : ℚ) + 1 := by
        field_simp
      rw [hexp]
      exact hcast
    have herr1 := (abs_le.mp herr).1
    have herr2 := (abs_le.mp herr).2
    rw [Int.ceil_eq_iff]
    constructor
    · linarith
    · linarith

theorem nat_ceilDiv_ge (S d : ℕ) (hd0 : 0 < d) : S ≤ ((S + d - 1) / d) * d := by
  have h1 := Nat.mod_add_div' (S + d - 1) d
  have h2 := Nat.mod_lt (S + d - 1) hd0
  omega

theorem nat_ceilDiv_le (S d : ℕ) : ((S + d - 1) / d) * d ≤ S + d - 1 :=
  Nat.div_mul_le_self _ _

theorem ceil_div_eq_nat (S d : ℕ) (hd0 : 0 < d) :
    ⌈(S : ℚ) / (d : ℚ)⌉ = (((S + d - 1) / d : ℕ) : ℤ) := by
  have hdq0 : (0 : ℚ) < (d : ℚ) := by exact_mod_cast hd0
  rcases Nat.eq_zero_or_pos S with h0 | h0
  · subst h0
    have h1 : (0 + d - 1) / d = 0 := Nat.div_eq_of_lt (by omega)
    rw [h1]
    norm_num
  have hge := nat_ceilDiv_ge S d hd0
  have hle := nat_ceilDiv_le S d
  set c0 := (S + d - 1) / d with hc0
  have hSgt : ((c0 : ℤ) - 1) * d < S := by
    have hz : (c0 : ℤ) * d ≤ (S : ℤ) + d - 1 := by
      have h6 : c0 * d ≤ S + d - 1 := hle
      have h7 : ((c0 * d : ℕ) : ℤ) = (c0 : ℤ) * d := by push_cast; ring
      omega
    have hcomm : ((c0 : ℤ) - 1) * d = (c0 : ℤ) * d - d := by ring
    have hS1 : (1 : ℤ) ≤ (S : ℤ) := by exact_mod_cast h0
    rw [hcomm]
    linarith
  rw [Int.ceil_eq_iff]
  constructor
  · rw [lt_div_iff hdq0]
    exact_mod_cast hSgt
  · rw [div_le_iff hdq0]
    exact_mod_cast hge

theorem redundantSize_eq_exact (S m t : ℕ) (hS : S < 2 ^ 53) (hm : 0 < m)
    (hm2 : m ≤ 1024) (ht : t ≤ 1024) :
    redundantSize S m t = redundantSizeExact S m t := by
  have hsec : sectorSize = 2 ^ 22 := by norm_num [sectorSize]
  have hd0 : 0 < m * sectorSize := Nat.mul_pos hm (by norm_num [sectorSize])
  have hdlt : m * sectorSize < 2 ^ 53 := by
    calc m * sectorSize ≤ 1024 * sectorSize := Nat.mul_le_mul_right _ hm2
    _ < 2 ^ 53 := by norm_num [sectorSize]
  have hdu : u64 (m * sectorSize) = m * sectorSize :=
    Nat.mod_eq_of_lt (lt_trans hdlt (by norm_num))
  rw [redundantSize, hdu, roundF64_natCast S hS, roundF64_natCast _ hdlt,
    ceil_roundF64_div S (m * sectorSize) hd0 (lt_trans hdlt (by norm_num)) hS,
    ceil_div_eq_nat S (m * sectorSize) hd0, Int.toNat_natCast, redundantSizeExact,
    u64]
  apply Nat.mod_eq_of_lt
  have hc0le : (S + m * sectorSize - 1) / (m * sectorSize) ≤ 2 ^ 31 := by
    have h1 : S + m * sectorSize - 1 ≤ 2 ^ 53 - 2 + m * sectorSize := by omega
    have h2 : (S + m * sectorSize - 1) / (m * sectorSize) ≤
        (2 ^ 53 - 2 + m * sectorSize) / (m * sectorSize) :=
      Nat.div_le_div_right h1
    have h3 : (2 ^ 53 - 2 + m * sectorSize) / (m * sectorSize) =
        (2 ^ 53 - 2) / (m * sectorSize) + 1 := Nat.add_div_right _ hd0
    have h4 : (2 ^ 53 - 2) / (m * sectorSize) ≤ (2 ^ 53 - 2) / sectorSize := by
      apply Nat.div_le_div_left
      · calc sectorSize = 1 * sectorSize := (one_mul _).symm
        _ ≤ m * sectorSize := Nat.mul_le_mul_right _ hm
      · norm_num [sectorSize]
    have h5 : (2 ^ 53 - 2) / sectorSize = 2 ^ 31 - 1 := by norm_num [sectorSize]
    omega
  calc (S + m * sectorSize - 1) / (m * sectorSize) * t * sectorSize
      ≤ 2 ^ 31 * 1024 * sectorSize := by
        apply Nat.mul_le_mul_right
        exact Nat.mul_le_mul hc0le ht
    _ < 2 ^ 64 := by norm_num [sectorSize]

theorem redundantSizeExact_ge (S m t : ℕ) (hm : 0 < m) :
    (S * t : ℚ) / (m : ℚ) ≤ (redundantSizeExact S m t : ℚ) := by
  have hd0 : 0 < m * sectorSize := Nat.mul_pos hm (by norm_num [sectorSize])
  have hge := nat_ceilDiv_ge S (m * sectorSize) hd0
  have hmul : S * t ≤ (((S + m * sectorSize - 1) / (m * sectorSize)) *
      (m * sectorSize)) * t := Nat.mul_le_mul_right t hge
  rw [redundantSizeExact, div_le_iff (by exact_mod_cast hm : (0 : ℚ) < (m : ℚ))]
  have hcast : ((S * t : ℕ) : ℚ) ≤
      (((((S + m * sectorSize - 1) / (m * sectorSize)) * (m * sectorSize)) * t : ℕ) : ℚ) := by
    exact_mod_cast hmul
  push_cast at hcast ⊢
  nlinarith [hcast]

theorem redundantSizeExact_mono (S1 S2 m t : ℕ) (h : S1 ≤ S2) :
    redundantSizeExact S1 m t ≤ redundantSizeExact S2 m t := by
  rw [redundantSizeExact, redundantSizeExact]
  apply Nat.mul_le_mul_right
  apply Nat.mul_le_mul_right
  exact Nat.div_le_div_right (by omega)

/-
Claim C2.
-/

/-- C2 (amended): for every object size S below 2 ^ 53 and shard parameters
1 ≤ m ≤ t ≤ 1024, redundantSize S m t equals
ceil(S / (m * sectorSize)) * t * sectorSize computed exactly; consequently
redundantSize S m t ≥ S * t / m, and redundantSize is non-decreasing in S on
that range. (For sizes of 2 ^ 53 and above the float64 conversion inside
redundantSize rounds the size and the exact equality fails, see the
counterexample; for very large shard counts the uint64 products wrap.) -/
theorem redundantSize_exact_spec (S m t : ℕ) (hS : S < 2 ^ 53) (hm : 1 ≤ m)
    (hmt : m ≤ t) (ht : t ≤ 1024) :
    redundantSize S m t = redundantSizeExact S m t ∧
    (S * t : ℚ) / (m : ℚ) ≤ (redundantSize S m t : ℚ) ∧
    (∀ S2, S2 ≤ S → redundantSize S2 m t ≤ redundantSize S m t) := by
  have hm2 : m ≤ 1024 := le_trans hmt ht
  have heq := redundantSize_eq_exact S m t hS hm hm2 ht
  refine ⟨heq, ?_, ?_⟩
  · rw [heq]
    exact redundantSizeExact_ge S m t hm
  · intro S2 h2
    rw [heq, redundantSize_eq_exact S2 m t (lt_of_le_of_lt h2 hS) hm hm2 ht]
    exact redundantSizeExact_mono S2 S m t h2

/-- witness for C2 at S = 5, m = 2, t = 3. -/
theorem redundantSize_exact_spec_witness :
    (5 : ℕ) < 2 ^ 53 ∧ redundantSize 5 2 3 = redundantSizeExact 5 2 3 :=
  ⟨by decide,
    (redundantSize_exact_spec 5 2 3 (by decide) (by decide) (by decide) (by decide)).1⟩

/-- C2 counterexample: at size 45035996273704961 (ten times 2 ^ 52, plus
one) with m = 10 and t = 30, the float64 conversion of the size rounds down
to ten times 2 ^ 52, so redundantSize returns 135107988821114880 while the
exact formula gives 135107988946944000, and the returned value is even
strictly below S * t / m. -/
theorem redundantSize_float_counterexample :
    redundantSize 45035996273704961 10 30 ≠
      redundantSizeExact 45035996273704961 10 30 ∧
    ¬ ((45035996273704961 * 30 : ℚ) / (10 : ℚ) ≤
      (redundantSize 45035996273704961 10 30 : ℚ)) := by
  have hp1 : pow2 (52 - 55) = 1 / 8 := by
    have h1 : (52 - 55 : ℤ) = -3 := by norm_num
    rw [h1, pow2, if_neg (by norm_num)]
    norm_num [show Int.toNat (-(-3 : ℤ)) = 3 from rfl, show Int.toNat (3 : ℤ) = 3 from rfl]
  have hp2 : pow2 (55 - 52) = 8 := by
    have h1 : (55 - 52 : ℤ) = 3 := by norm_num
    rw [h1, pow2, if_pos (by norm_num)]
    norm_num [show Int.toNat (3 : ℤ) = 3 from rfl]
  have hflog : flog2 ((45035996273704961 : ℕ) : ℚ) = 55 := by
    apply flog2_eq
    · norm_num
    · rw [Rat.num_natCast]
      norm_num
    · rw [Rat.den_natCast]
      norm_num
    · rw [show (55 : ℤ) = ((55 : ℕ) : ℤ) from rfl, zpow_natCast]
      norm_num
    · rw [show (55 : ℤ) + 1 = ((56 : ℕ) : ℤ) from rfl, zpow_natCast]
      norm_num
  have hrne : rne (((45035996273704961 : ℕ) : ℚ) * (1 / 8)) = 5629499534213120 := by
    have hx : ((45035996273704961 : ℕ) : ℚ) * (1 / 8) = 45035996273704961 / 8 := by
      push_cast
      ring
    have hfl : ⌊(45035996273704961 : ℚ) / 8⌋ = 5629499534213120 := by norm_num
    rw [hx, rne, hfl, if_pos (by norm_num)]
  have hS_round : roundF64 ((45035996273704961 : ℕ) : ℚ) = 45035996273704960 := by
    rw [roundF64, if_neg (by norm_num), hflog, hp1, hp2, hrne]
    norm_num
  have hu : u64 (10 * sectorSize) = 41943040 := by norm_num [u64, sectorSize]
  have hd_round : roundF64 ((41943040 : ℕ) : ℚ) = ((41943040 : ℕ) : ℚ) :=
    roundF64_natCast 41943040 (by norm_num)
  have hq : (45035996273704960 : ℚ) / ((41943040 : ℕ) : ℚ) = ((1073741824 : ℕ) : ℚ) := by
    push_cast
    norm_num
  have hq_round : roundF64 ((1073741824 : ℕ) : ℚ) = ((1073741824 : ℕ) : ℚ) :=
    roundF64_natCast 1073741824 (by norm_num)
  have hval : redundantSize 45035996273704961 10 30 = 135107988821114880 := by
    rw [redundantSize, hu, hS_round, hd_round, hq, hq_round]
    rw [show (((1073741824 : ℕ) : ℚ)) = ((1073741824 : ℤ) : ℚ) by push_cast; ring,
      Int.ceil_intCast]
    norm_num [u64, sectorSize, show Int.toNat (1073741824 : ℤ) = 1073741824 from rfl]
  have hexact : redundantSizeExact 45035996273704961 10 30 = 135107988946944000 := by
    norm_num [redundantSizeExact, sectorSize]
  constructor
  · rw [hval, hexact]
    norm_num
  · rw [hval]
    norm_num

/-
Claim C1.
-/

theorem foldl_push_eq (page : List SrcObject) :
    ∀ acc : List SrcObject, page.foldl (fun acc2 o => acc2 ++ [o]) acc = acc ++ page := by
  induction page with
  | nil => intro acc; simp
  | cons o rest ih =>
    intro acc
    rw [List.foldl_cons, ih]
    simp

theorem producerEnqueues_eq_flatten (pages : List (List SrcObject)) :
    producerEnqueues pages = pages.flatten := by
  rw [producerEnqueues]
  suffices h : ∀ acc : List SrcObject,
      pages.foldl (fun acc page => page.foldl (fun acc2 o => acc2 ++ [o]) acc) acc =
        acc ++ pages.flatten by
    simpa using h []
  induction pages with
  | nil => intro acc; simp
  | cons p rest ih =>
    intro acc
    rw [List.foldl_cons, foldl_push_eq, ih]
    simp

/-- C1 counterexample: it is not the case that a run against a destination
already holding every listed object enqueues nothing. With one page holding
one object and every object reported Present, the producer still enqueues
the object, because the listing loop of main.go consults no existence check
before sending to the queue. -/
theorem second_pass_transfers_counterexample :
    ¬ ∀ (pages : List (List SrcObject)) (present : SrcObject → Bool),
        (∀ o ∈ pages.flatten, present o = true) → producerEnqueues pages = [] := by
  intro h
  have h1 := h [[⟨"a", 1⟩]] (fun _ => true) (by intro o _; rfl)
  simp [producerEnqueues] at h1

/-- C1 (amended): the producer of main.go enqueues every listed object
unconditionally, never consulting an existence check, so a second pass over
an unchanged source with a fully populated destination performs one transfer
per listed object rather than zero; a producer following the spec (filtering
by the existence check) would enqueue nothing in that situation. -/
theorem second_pass_enqueues_every_object (pages : List (List SrcObject))
    (present : SrcObject → Bool) (hall : ∀ o ∈ pages.flatten, present o = true)
    (hne : pages.flatten ≠ []) :
    producerEnqueues pages = pages.flatten ∧
    (producerEnqueues pages).length = pages.flatten.length ∧
    producerEnqueues pages ≠ [] ∧
    producerEnqueuesChecked present pages = [] := by
  refine ⟨producerEnqueues_eq_flatten pages, by rw [producerEnqueues_eq_flatten],
    by rw [producerEnqueues_eq_flatten]; exact hne, ?_⟩
  rw [producerEnqueuesChecked]
  rw [List.filter_eq_nil]
  intro o ho
  simp [hall o ho]

/-- witness for C1 (amended) at one page with one object, all objects
Present on the destination. -/
theorem second_pass_enqueues_every_object_witness :
    producerEnqueues [[⟨"k", 1⟩]] ≠ [] ∧
    producerEnqueuesChecked (fun _ => true) [[⟨"k", 1⟩]] = [] := by
  have h := second_pass_enqueues_every_object [[⟨"k", 1⟩]] (fun _ => true)
    (by intro o _; rfl) (by simp)
  exact ⟨h.2.2.1, h.2.2.2⟩

/-
Claim C3.
-/

/-- C3 counterexample: the options value main.go hands to the destination
ingest call is the empty api.UploadObjectOptions, so with the configured
defaults (minshards 10, totalshards 30, contract set autopilot) the call
does not carry the configured minimum shard count, total shard count or
contract-set selector. -/
theorem upload_options_not_supplied_counterexample :
    ¬ (mainUploadOptions.minShards = some 10 ∧
       mainUploadOptions.totalShards = some 30 ∧
       mainUploadOptions.contractSet = some "autopilot") := by
  intro h
  exact Option.noConfusion h.1

/-- C3 (amended): the earlier revision workerUploadObject hands the
contract set and the two shard counts through unmodified as the query
parameters of the PUT request, while the current main.go uploadObject
passes the empty option bundle, supplying none of the three configured
values to the ingest call. -/
theorem workerUploadObject_passes_config (wa n cs : String) (m t : ℤ) :
    (workerUploadObject wa n cs m t).contractset = cs ∧
    (workerUploadObject wa n cs m t).minshards = toString m ∧
    (workerUploadObject wa n cs m t).totalshards = toString t ∧
    (workerUploadObject wa n cs m t).method = "PUT" ∧
    (workerUploadObject wa n cs m t).path = wa ++ "/objects/" ++ n ∧
    mainUploadOptions.minShards = none ∧
    mainUploadOptions.totalShards = none ∧
    mainUploadOptions.contractSet = none :=
  ⟨rfl, rfl, rfl, rfl, rfl, rfl, rfl, rfl⟩

/-
Claim C7.
-/

theorem tdiv_le_zero_iff (t : ℤ) :
    Int.tdiv t 1000000000 ≤ 0 ↔ t < 1000000000 := by
  rcases t with m | m
  · have h1 : Int.tdiv (Int.ofNat m) 1000000000 = Int.ofNat (m / 1000000000) := rfl
    rw [h1, Int.ofNat_eq_natCast, Int.ofNat_eq_natCast]
    omega
  · have h1 : Int.tdiv (Int.negSucc m) 1000000000 =
        -Int.ofNat ((m + 1) / 1000000000) := rfl
    rw [h1, Int.ofNat_eq_natCast, Int.negSucc_eq]
    omega

theorem bpsUnits_isSome (sp : ℚ) (hlt : sp < 1000 ^ 7) :
    (bpsUnits sp).isSome := by
  rw [bpsUnits]
  by_cases h2 : sp < 1000
  · rw [if_pos h2]
    rfl
  · rw [if_neg h2]
    have hfl : Int.toNat ⌊sp⌋ < 1000 ^ 7 := by
      have h3 : ⌊sp⌋ < ((1000 : ℤ) ^ 7 : ℤ) := by
        rw [Int.floor_lt]
        push_cast
        exact hlt
      omega
    have hk : Nat.log 1000 (Int.toNat ⌊sp⌋) < 7 := by
      rcases Nat.eq_zero_or_pos (Int.toNat ⌊sp⌋) with hz | hz
      · rw [hz]
        simp
      · exact Nat.log_lt_of_lt_pow hz.ne' hfl
    have hidx : Nat.log 1000 (Int.toNat ⌊sp⌋) - 1 < ("KMGTPE".toList).length := by
      have hlen : ("KMGTPE".toList).length = 6 := rfl
      omega
    rw [List.get?_eq_get hidx]
    rfl

/-- C7: for every byte count b and duration t whose truncation to whole
seconds is not positive, which happens exactly when the duration is below
one second (covering zero, all negative durations, and positive sub-second
durations), formatBpsString returns the string 0.00 bps; and for every
input the function produces a result (no division by zero is reached, since
the positive branch divides by a whole-second count of at least one, and
the unit index never leaves the units constant since the wrapped bit count
is below 1000 to the seventh power). -/
theorem formatBpsString_zero_rate :
    (∀ (b : ℕ) (t : ℤ), t < 1000000000 → formatBpsString b t = some "0.00 bps") ∧
    (∀ t : ℤ, Int.tdiv t 1000000000 ≤ 0 ↔ t < 1000000000) ∧
    (∀ (b : ℕ) (t : ℤ), (formatBpsString b t).isSome) := by
  refine ⟨?_, tdiv_le_zero_iff, ?_⟩
  · intro b t ht
    rw [formatBpsString, if_pos ((tdiv_le_zero_iff t).mpr ht)]
  · intro b t
    rw [formatBpsString]
    by_cases h1 : Int.tdiv t 1000000000 ≤ 0
    · rw [if_pos h1]
      rfl
    · rw [if_neg h1]
      have hsecs : (1 : ℤ) ≤ Int.tdiv t 1000000000 := by omega
      have hsecsq : (1 : ℚ) ≤ ((Int.tdiv t 1000000000 : ℤ) : ℚ) := by
        exact_mod_cast hsecs
      apply bpsUnits_isSome
      have hu : u64 (b * 8) < 2 ^ 64 := Nat.mod_lt _ (by norm_num)
      have huq : ((u64 (b * 8) : ℕ) : ℚ) < 1000 ^ 7 := by
        calc ((u64 (b * 8) : ℕ) : ℚ) < ((2 ^ 64 : ℕ) : ℚ) := by exact_mod_cast hu
        _ < 1000 ^ 7 := by norm_num
      calc ((u64 (b * 8) : ℕ) : ℚ) / ((Int.tdiv t 1000000000 : ℤ) : ℚ)
          ≤ ((u64 (b * 8) : ℕ) : ℚ) := div_le_self (by positivity) hsecsq
      _ < 1000 ^ 7 := huq

/-- witness for C7: a negative duration takes the zero branch, and a
positive multi-second duration produces a unit-scaled result. -/
theorem formatBpsString_zero_rate_witness :
    ((-5 : ℤ) < 1000000000) ∧ formatBpsString 3 (-5) = some "0.00 bps" ∧
    (formatBpsString 7 5000000000).isSome :=
  ⟨by decide, formatBpsString_zero_rate.1 3 (-5) (by decide),
    formatBpsString_zero_rate.2.2 7 5000000000⟩

/-
Claim C8.
-/

theorem runEvents_cons (c : Counters) (e : CEvent) (es : List CEvent) :
    runEvents c (e :: es) = runEvents (applyEvent c e) es := rfl

theorem sumUB_append (es1 es2 : List CEvent) :
    sumUB (es1 ++ es2) = sumUB es1 + sumUB es2 := by
  induction es1 with
  | nil => simp [sumUB]
  | cons e es ih =>
    cases e
    all_goals simp [sumUB, ih]
    all_goals omega

theorem sumRB_append (es1 es2 : List CEvent) :
    sumRB (es1 ++ es2) = sumRB es1 + sumRB es2 := by
  induction es1 with
  | nil => simp [sumRB]
  | cons e es ih =>
    cases e
    all_goals simp [sumRB, ih]
    all_goals omega

theorem sumTB_append (es1 es2 : List CEvent) :
    sumTB (es1 ++ es2) = sumTB es1 + sumTB es2 := by
  induction es1 with
  | nil => simp [sumTB]
  | cons e es ih =>
    cases e
    all_goals simp [sumTB, ih]
    all_goals omega

theorem sumUO_append (es1 es2 : List CEvent) :
    sumUO (es1 ++ es2) = sumUO es1 + sumUO es2 := by
  induction es1 with
  | nil => simp [sumUO]
  | cons e es ih =>
    cases e
    all_goals simp [sumUO, ih]
    all_goals omega

theorem runEvents_eq (es : List CEvent) : ∀ c : Counters,
    c.uploadedBytes + sumUB es < 2 ^ 64 →
    c.redundantBytes + sumRB es < 2 ^ 64 →
    c.totalBytes + sumTB es < 2 ^ 64 →
    c.uploadedObjects + sumUO es < 2 ^ 64 →
    runEvents c es = ⟨c.uploadedBytes + sumUB es, c.redundantBytes + sumRB es,
      c.totalBytes + sumTB es, c.uploadedObjects + sumUO es⟩ := by
  induction es with
  | nil =>
    intro c _ _ _ _
    simp [runEvents, sumUB, sumRB, sumTB, sumUO]
  | cons e es ih =>
    intro c h1 h2 h3 h4
    obtain ⟨ub, rb, tb, uo⟩ := c
    dsimp only at h1 h2 h3 h4 ⊢
    rw [runEvents_cons]
    cases e with
    | addUploadedBytes n =>
      simp only [sumUB, sumRB, sumTB, sumUO] at h1 h2 h3 h4 ⊢
      rw [show applyEvent ⟨ub, rb, tb, uo⟩ (CEvent.addUploadedBytes n) =
          ⟨ub + n, rb, tb, uo⟩ by simp [applyEvent, u64]; omega]
      rw [ih ⟨ub + n, rb, tb, uo⟩ (by dsimp only; omega) (by dsimp only; omega)
        (by dsimp only; omega) (by dsimp only; omega)]
      dsimp only
      simp only [Counters.mk.injEq, true_and, and_true]
      omega
    | addUploadedObjects =>
      simp only [sumUB, sumRB, sumTB, sumUO] at h1 h2 h3 h4 ⊢
      rw [show applyEvent ⟨ub, rb, tb, uo⟩ CEvent.addUploadedObjects =
          ⟨ub, rb, tb, uo + 1⟩ by simp [applyEvent, u64]; omega]
      rw [ih ⟨ub, rb, tb, uo + 1⟩ (by dsimp only; omega) (by dsimp only; omega)
        (by dsimp only; omega) (by dsimp only; omega)]
      dsimp only
      simp only [Counters.mk.injEq, true_and, and_true]
      omega
    | addTotalBytes n =>
      simp only [sumUB, sumRB, sumTB, sumUO] at h1 h2 h3 h4 ⊢
      rw [show applyEvent ⟨ub, rb, tb, uo⟩ (CEvent.addTotalBytes n) =
          ⟨ub, rb, tb + n, uo⟩ by simp [applyEvent, u64]; omega]
      rw [ih ⟨ub, rb, tb + n, uo⟩ (by dsimp only; omega) (by dsimp only; omega)
        (by dsimp only; omega) (by dsimp only; omega)]
      dsimp only
      simp only [Counters.mk.injEq, true_and, and_true]
      omega
    | addRedundantBytes n =>
      simp only [sumUB, sumRB, sumTB, sumUO] at h1 h2 h3 h4 ⊢
      rw [show applyEvent ⟨ub, rb, tb, uo⟩ (CEvent.addRedundantBytes n) =
          ⟨ub, rb + n, tb, uo⟩ by simp [applyEvent, u64]; omega]
      rw [ih ⟨ub, rb + n, tb, uo⟩ (by dsimp only; omega) (by dsimp only; omega)
        (by dsimp only; omega) (by dsimp only; omega)]
      dsimp only
      simp only [Counters.mk.injEq, true_and, and_true]
      omega

/-- C8: every mutation of the four progress counters is an atomic addition
of a non-negative quantity (the events of CEvent, matching the four
atomic.AddUint64 calls of main.go lines 243 to 246), and reads are atomic
loads of the stored value; consequently, along any execution, each counter
observed after any further events is at least the value observed before
them, provided no counter wraps past 2 ^ 64. -/
theorem progress_counters_monotone (c : Counters) (es1 es3 : List CEvent)
    (h1 : c.uploadedBytes + sumUB (es1 ++ es3) < 2 ^ 64)
    (h2 : c.redundantBytes + sumRB (es1 ++ es3) < 2 ^ 64)
    (h3 : c.totalBytes + sumTB (es1 ++ es3) < 2 ^ 64)
    (h4 : c.uploadedObjects + sumUO (es1 ++ es3) < 2 ^ 64) :
    (runEvents c es1).uploadedBytes ≤ (runEvents c (es1 ++ es3)).uploadedBytes ∧
    (runEvents c es1).redundantBytes ≤ (runEvents c (es1 ++ es3)).redundantBytes ∧
    (runEvents c es1).totalBytes ≤ (runEvents c (es1 ++ es3)).totalBytes ∧
    (runEvents c es1).uploadedObjects ≤ (runEvents c (es1 ++ es3)).uploadedObjects := by
  rw [sumUB_append] at h1
  rw [sumRB_append] at h2
  rw [sumTB_append] at h3
  rw [sumUO_append] at h4
  rw [runEvents_eq es1 c (by omega) (by omega) (by omega) (by omega)]
  rw [runEvents_eq (es1 ++ es3) c (by rw [sumUB_append]; omega)
    (by rw [sumRB_append]; omega) (by rw [sumTB_append]; omega)
    (by rw [sumUO_append]; omega)]
  rw [sumUB_append, sumRB_append, sumTB_append, sumUO_append]
  refine ⟨by simp, by simp, by simp, by simp⟩

/-- witness for C8 at a two-event run split after the first event. -/
theorem progress_counters_monotone_witness :
    (0 : ℕ) + sumUB ([CEvent.addUploadedBytes 5] ++ [CEvent.addUploadedObjects]) < 2 ^ 64 ∧
    (runEvents ⟨0, 0, 0, 0⟩ [CEvent.addUploadedBytes 5]).uploadedBytes ≤
      (runEvents ⟨0, 0, 0, 0⟩
        ([CEvent.addUploadedBytes 5] ++ [CEvent.addUploadedObjects])).uploadedBytes :=
  ⟨by decide,
    (progress_counters_monotone ⟨0, 0, 0, 0⟩ [CEvent.addUploadedBytes 5]
      [CEvent.addUploadedObjects] (by decide) (by decide) (by decide) (by decide)).1⟩

/-
Claim C4.
-/

theorem readAllAux_spec (f : ℕ) : ∀ (l h : List ℕ), l.length ≤ f →
    readAllAux f ⟨l, h⟩ = (l, ⟨[], h ++ l⟩) := by
  induction f with
  | zero =>
    intro l h hl
    have hnil : l = [] := List.length_eq_zero.mp (Nat.le_zero.mp hl)
    subst hnil
    simp [readAllAux]
  | succ f ih =>
    intro l h hl
    rw [readAllAux]
    by_cases hnil : l = []
    · subst hnil
      simp
    · rw [if_neg hnil]
      have hlen : (l.drop (256 * 2 ^ 20)).length ≤ f := by
        rw [List.length_drop]
        have h0 : 0 < l.length := List.length_pos.mpr hnil
        omega
      simp only [teeRead]
      rw [ih _ _ hlen]
      simp

theorem readAll_spec (content : List ℕ) :
    readAll ⟨content, []⟩ = (content, ⟨[], content⟩) := by
  rw [readAll]
  simpa using readAllAux_spec content.length content [] (le_refl _)

/-- C4: on a successful attempt uploadObject returns the digest finalized
over exactly the full byte content of the object, and the checksum is
computed in the same single streaming pass that feeds the ingest call: the
tee hands the ingest exactly the source bytes, writes exactly those bytes
into the digest accumulator, and leaves nothing unread, so the source
stream is consumed once and never reopened. -/
theorem uploadObject_success_digest (digest : List ℕ → List ℕ) (content : List ℕ) :
    uploadObject digest true true content = (digest content, none) ∧
    readAll ⟨content, []⟩ = (content, ⟨[], content⟩) := by
  refine ⟨?_, readAll_spec content⟩
  rw [uploadObject]
  simp [readAll_spec content]

/-
Claim C5.
-/

theorem retryLoop_all_fail (attempts : ℕ → List ℕ × Option String)
    (jitter : ℕ → ℚ) (h : ∀ k, ((attempts k).2).isSome) :
    ∀ fuel j : ℕ, retryLoop attempts jitter fuel j = none := by
  intro fuel
  induction fuel with
  | zero => intro j; rfl
  | succ f ih =>
    intro j
    rw [retryLoop]
    have hj := h j
    rcases hh : attempts j with ⟨ck, e⟩
    rcases e with _ | err
    · rw [hh] at hj
      simp at hj
    · simp [ih]

theorem retryLoop_success_origin (attempts : ℕ → List ℕ × Option String)
    (jitter : ℕ → ℚ) : ∀ (fuel j : ℕ) (ck : List ℕ) (sl : List ℤ),
    retryLoop attempts jitter fuel j = some (ck, sl) →
    ∃ k, attempts k = (ck, none) := by
  intro fuel
  induction fuel with
  | zero =>
    intro j ck sl h
    simp [retryLoop] at h
  | succ f ih =>
    intro j ck sl h
    rw [retryLoop] at h
    rcases hh : attempts j with ⟨ck2, e⟩
    rw [hh] at h
    rcases e with _ | err
    · simp only [Option.some.injEq, Prod.mk.injEq] at h
      exact ⟨j, by rw [hh, h.1]⟩
    · simp only [Option.map_eq_some'] at h
      obtain ⟨p, hp, heq⟩ := h
      simp only [Prod.mk.injEq] at heq
      rw [← heq.1]
      exact ih (j + 1) p.1 p.2 (by rw [hp])

theorem processObject_all_fail (attempts : ℕ → List ℕ × Option String)
    (jitter : ℕ → ℚ) (fuel size m t : ℕ) (c : Counters)
    (h : ∀ k, ((attempts k).2).isSome) :
    processObject attempts jitter fuel size m t c = c := by
  rw [processObject, retryLoop_all_fail attempts jitter h fuel 0]

/-- C5: a failed transfer is never counted as complete. uploadObject
returns the zero checksum and an error whenever the source read or the
destination write fails; the worker retry loop yields a completion only
when some attempt succeeded; and as long as no attempt has succeeded the
worker leaves every progress counter untouched. -/
theorem failed_transfer_not_counted :
    (∀ (digest : List ℕ → List ℕ) (i : Bool) (content : List ℕ),
      uploadObject digest false i content =
        (zeroChecksum, some "failed to get object")) ∧
    (∀ (digest : List ℕ → List ℕ) (content : List ℕ),
      uploadObject digest true false content =
        (zeroChecksum, some "failed to upload")) ∧
    (∀ (attempts : ℕ → List ℕ × Option String) (jitter : ℕ → ℚ)
        (fuel size m t : ℕ) (c : Counters),
      (∀ k, ((attempts k).2).isSome) →
      processObject attempts jitter fuel size m t c = c) ∧
    (∀ (attempts : ℕ → List ℕ × Option String) (jitter : ℕ → ℚ)
        (fuel j : ℕ) (ck : List ℕ) (sl : List ℤ),
      retryLoop attempts jitter fuel j = some (ck, sl) →
      ∃ k, attempts k = (ck, none)) := by
  refine ⟨?_, ?_, ?_, ?_⟩
  · intro digest i content
    rw [uploadObject]
    simp
  · intro digest content
    rw [uploadObject]
    simp
  · intro attempts jitter fuel size m t c h
    exact processObject_all_fail attempts jitter fuel size m t c h
  · intro attempts jitter fuel j ck sl h
    exact retryLoop_success_origin attempts jitter fuel j ck sl h

/-- witness for C5: a source-read failure returns the zero checksum with an
error, and a worker whose every attempt fails leaves the counters at their
starting values. -/
theorem failed_transfer_not_counted_witness :
    uploadObject (fun l => l) false true [1, 2] =
      (zeroChecksum, some "failed to get object") ∧
    processObject (fun _ => (zeroChecksum, some "boom")) (fun _ => 0) 3 5 10 30
      ⟨0, 0, 0, 0⟩ = ⟨0, 0, 0, 0⟩ :=
  ⟨failed_transfer_not_counted.1 (fun l => l) true [1, 2],
    failed_transfer_not_counted.2.2.1 (fun _ => (zeroChecksum, some "boom"))
      (fun _ => 0) 3 5 10 30 ⟨0, 0, 0, 0⟩ (fun _ => rfl)⟩

/-
Claim C6.
-/

theorem retryLoop_sleeps (attempts : ℕ → List ℕ × Option String)
    (jitter : ℕ → ℚ) : ∀ (n j : ℕ) (ck : List ℕ),
    (∀ k, k < n → ((attempts (j + k)).2).isSome) →
    attempts (j + n) = (ck, none) →
    retryLoop attempts jitter (n + 1) j =
      some (ck, (List.range n).map (fun i => sleepMs (j + i) (jitter (j + i)))) := by
  intro n
  induction n with
  | zero =>
    intro j ck _ hsucc
    rw [Nat.add_zero] at hsucc
    rw [retryLoop, hsucc]
    simp
  | succ n ih =>
    intro j ck hfail hsucc
    have hj := hfail 0 (by omega)
    rw [Nat.add_zero] at hj
    rw [retryLoop]
    rcases hh : attempts j with ⟨ck2, e⟩
    rcases e with _ | err
    · rw [hh] at hj
      simp at hj
    · have ih2 := ih (j + 1) ck
        (fun k hk => by
          have h2 := hfail (k + 1) (by omega)
          rwa [show j + (k + 1) = j + 1 + k by omega] at h2)
        (by rwa [show j + 1 + n = j + (n + 1) by omega])
      simp only [ih2, Option.map_some']
      rw [List.range_succ_eq_map]
      simp only [List.map_cons, List.map_map, Nat.add_zero, Option.some.injEq,
        Prod.mk.injEq, List.cons.injEq]
      refine ⟨trivial, trivial, ?_⟩
      apply List.map_congr_left
      intro a _
      simp only [Function.comp_apply]
      rw [show j + 1 + a = j + (a + 1) by omega]

/-- C6 (amended): the worker retry loop is unbounded and, after the j-th
failed attempt, sleeps min(60 s, floor((2 + U)^j) milliseconds) where U is
a uniform [0,1) draw fresh on each attempt: the jitter enters the base of
the exponentiation, not a multiplicative factor, and in particular the
sleep after the first failed attempt is always exactly 1 ms regardless of
the draw; every sleep respects the 60 second cap. -/
theorem retry_backoff_shape (attempts : ℕ → List ℕ × Option String)
    (jitter : ℕ → ℚ) (n : ℕ) (ck : List ℕ)
    (hfail : ∀ k, k < n → ((attempts k).2).isSome)
    (hsucc : attempts n = (ck, none)) :
    retryLoop attempts jitter (n + 1) 0 =
      some (ck, (List.range n).map (fun j => sleepMs j (jitter j))) ∧
    (∀ (j : ℕ) (u : ℚ), sleepMs j u ≤ 60000) ∧
    (∀ u : ℚ, sleepMs 0 u = 1) := by
  refine ⟨?_, ?_, ?_⟩
  · have h := retryLoop_sleeps attempts jitter n 0 ck
      (by intro k hk; simpa using hfail k hk) (by simpa using hsucc)
    simpa using h
  · intro j u
    rw [sleepMs]
    exact min_le_left _ _
  · intro u
    rw [sleepMs]
    norm_num

/-- witness for C6 (amended): one failed attempt followed by success sleeps
exactly once, for 1 ms. -/
theorem retry_backoff_shape_witness :
    retryLoop (fun k => if k = 0 then (zeroChecksum, some "e") else (zeroChecksum, none))
      (fun _ => 0) 2 0 = some (zeroChecksum, [1]) := by
  have h := retry_backoff_shape
    (fun k => if k = 0 then (zeroChecksum, some "e") else (zeroChecksum, none))
    (fun _ => 0) 1 zeroChecksum
    (by intro k hk; simp [show k = 0 by omega])
    (by simp)
  rw [h.1]
  have h0 := h.2.2 0
  rw [show List.range 1 = [0] from rfl]
  simp [h0]

/-- C6 counterexample: no choice of base, cap and per-draw jitter factor
presents the sleeps of the code as min(cap, base^attempt * jitterFactor)
with the factor drawn from a fixed range each attempt: the code sleeps a
deterministic 1 ms after the first failed attempt for every draw, while the
sleep after the third failure still varies with the draw (4 ms at draw 0,
6 ms at draw one half), which no such assignment can reproduce. -/
theorem retry_backoff_not_multiplicative :
    ¬ ∃ (base cap : ℚ) (phi : ℚ → ℚ), ∀ (j : ℕ) (u : ℚ), 0 ≤ u → u < 1 →
        ((sleepMs j u : ℤ) : ℚ) = min cap (base ^ j * phi u) := by
  rintro ⟨base, cap, phi, h⟩
  have e00 := h 0 0 (by norm_num) (by norm_num)
  have e05 := h 0 (1 / 2) (by norm_num) (by norm_num)
  have e20 := h 2 0 (by norm_num) (by norm_num)
  have e25 := h 2 (1 / 2) (by norm_num) (by norm_num)
  have s00 : ((sleepMs 0 0 : ℤ) : ℚ) = 1 := by norm_num [sleepMs]
  have s05 : ((sleepMs 0 (1 / 2) : ℤ) : ℚ) = 1 := by norm_num [sleepMs]
  have s20 : ((sleepMs 2 0 : ℤ) : ℚ) = 4 := by norm_num [sleepMs]
  have s25 : ((sleepMs 2 (1 / 2) : ℤ) : ℚ) = 6 := by norm_num [sleepMs]
  rw [s00, pow_zero, one_mul] at e00
  rw [s05, pow_zero, one_mul] at e05
  rw [s20] at e20
  rw [s25] at e25
  rcases min_eq_iff.mp e00.symm with ⟨hcap, _⟩ | ⟨hphi0, _⟩
  · have h4 : min cap (base ^ 2 * phi 0) ≤ cap := min_le_left _ _
    rw [← e20, hcap] at h4
    norm_num at h4
  · rcases min_eq_iff.mp e05.symm with ⟨hcap, _⟩ | ⟨hphi5, _⟩
    · have h4 : min cap (base ^ 2 * phi 0) ≤ cap := min_le_left _ _
      rw [← e20, hcap] at h4
      norm_num at h4
    · rw [hphi0, mul_one] at e20
      rw [hphi5, mul_one] at e25
      rw [← e20] at e25
      norm_num at e25

/-
Claim C9.
-/

theorem poolReachable_bounds (C N : ℕ) (s : PoolState) (h : PoolReachable C N s) :
    s.queued ≤ C ∧ s.busy ≤ N := by
  induction h with
  | refl => exact ⟨Nat.zero_le _, Nat.zero_le _⟩
  | tail _ step ih =>
    obtain ⟨ih1, ih2⟩ := ih
    cases step with
    | enqueue hlt =>
      dsimp only
      omega
    | dequeue hq hb =>
      dsimp only
      omega
    | finish hb =>
      dsimp only
      omega

/-- C9: with queue capacity C (the uploadQueue channel buffer, created with
capacity threads) and N workers (also threads), every reachable pipeline
state buffers at most C objects and has at most N in flight, so queued plus
in-flight objects never exceed C + N; and from any reachable state already
holding C + N outstanding objects no transition increases the buffered
count — the producer's send on the full channel blocks until a worker
dequeues. -/
theorem pool_backpressure (C N : ℕ) (s : PoolState) (h : PoolReachable C N s) :
    s.queued ≤ C ∧ s.busy ≤ N ∧ s.queued + s.busy ≤ C + N ∧
    (s.queued + s.busy = C + N →
      ∀ s2 : PoolState, PoolStep C N s s2 → s2.queued ≤ s.queued) := by
  obtain ⟨h1, h2⟩ := poolReachable_bounds C N s h
  refine ⟨h1, h2, by omega, ?_⟩
  intro hfull s2 hstep
  cases hstep with
  | enqueue hlt => dsimp only; omega
  | dequeue hq hb => dsimp only; omega
  | finish hb => dsimp only; omega

/-- witness for C9 at C = N = 1 in the saturated reachable state with one
buffered and one in-flight object. -/
theorem pool_backpressure_witness :
    PoolReachable 1 1 ⟨1, 1⟩ ∧
    (⟨1, 1⟩ : PoolState).queued + (⟨1, 1⟩ : PoolState).busy ≤ 1 + 1 := by
  have s1 : PoolStep 1 1 ⟨0, 0⟩ ⟨1, 0⟩ := PoolStep.enqueue ⟨0, 0⟩ (by norm_num)
  have s2 : PoolStep 1 1 ⟨1, 0⟩ ⟨0, 1⟩ :=
    PoolStep.dequeue ⟨1, 0⟩ (by norm_num) (by norm_num)
  have s3 : PoolStep 1 1 ⟨0, 1⟩ ⟨1, 1⟩ := PoolStep.enqueue ⟨0, 1⟩ (by norm_num)
  have hreach : PoolReachable 1 1 ⟨1, 1⟩ :=
    Relation.ReflTransGen.tail
      (Relation.ReflTransGen.tail
        (Relation.ReflTransGen.tail Relation.ReflTransGen.refl s1) s2) s3
  exact ⟨hreach, (pool_backpressure 1 1 ⟨1, 1⟩ hreach).2.2.1⟩

/-
Claim C10.
-/

theorem tbReachable_invariant (W : ℕ) (s : TBState) (h : TBReachable W s) :
    s.tb = s.rb + s.pending.sum ∧
    (∀ v, s.lg = some v → v ≤ s.rb) ∧
    (∀ p ∈ s.logged, p.1 ≤ p.2) := by
  induction h with
  | refl =>
    refine ⟨rfl, ?_, ?_⟩
    · intro v hv
      simp at hv
    · intro p hp
      simp at hp
  | tail _ step ih =>
    obtain ⟨ih1, ih2, ih3⟩ := ih
    cases step with
    | addTB r hlen =>
      dsimp only
      refine ⟨?_, ih2, ih3⟩
      rw [List.sum_cons]
      omega
    | addRB r hmem =>
      dsimp only
      have hsum := List.sum_erase hmem
      refine ⟨by omega, ?_, ih3⟩
      intro v hv
      have := ih2 v hv
      omega
    | loadRB hnone =>
      dsimp only
      refine ⟨ih1, ?_, ih3⟩
      intro v hv
      injection hv with hv
      omega
    | loadTB v hv =>
      dsimp only
      refine ⟨ih1, ?_, ?_⟩
      · intro v2 hv2
        simp at hv2
      · intro p hp
        rcases List.mem_cons.mp hp with heq | hmem
        · subst heq
          dsimp only
          have := ih2 v hv
          omega
        · exact ih3 p hmem

/-- C10 (amended): totalBytes and redundantBytes are incremented only at
the single completion point and by the identical redundantSize value, but
as two separate atomic additions with totalBytes first, and the logger
reads the two counters with two separate atomic loads; consequently at
every reachable state totalBytes equals redundantBytes plus the values of
in-progress completions, redundantBytes never exceeds totalBytes, the two
are equal whenever no worker sits between its two additions, and every
emitted log pair has its redundantBytes field at most its totalBytes field
— but not necessarily equal to it, see the counterexample. -/
theorem redundant_total_bytes_relation (W : ℕ) (s : TBState)
    (h : TBReachable W s) :
    s.tb = s.rb + s.pending.sum ∧
    (s.pending = [] → s.tb = s.rb) ∧
    s.rb ≤ s.tb ∧
    (∀ p ∈ s.logged, p.1 ≤ p.2) := by
  obtain ⟨h1, _, h3⟩ := tbReachable_invariant W s h
  refine ⟨h1, ?_, by omega, h3⟩
  intro hp
  rw [hp] at h1
  simpa using h1

/-- witness for C10 (amended): after one completed update pair the two
counters agree. -/
theorem redundant_total_bytes_relation_witness :
    TBReachable 1 ⟨5, 5, [], none, []⟩ ∧
    ((⟨5, 5, [], none, []⟩ : TBState).pending = [] →
      (⟨5, 5, [], none, []⟩ : TBState).tb = (⟨5, 5, [], none, []⟩ : TBState).rb) := by
  have s1 : TBStep 1 ⟨0, 0, [], none, []⟩ ⟨5, 0, [5], none, []⟩ :=
    TBStep.addTB ⟨0, 0, [], none, []⟩ 5 (by norm_num)
  have s2 : TBStep 1 ⟨5, 0, [5], none, []⟩ ⟨5, 5, [], none, []⟩ :=
    TBStep.addRB ⟨5, 0, [5], none, []⟩ 5 (by simp)
  have hreach : TBReachable 1 ⟨5, 5, [], none, []⟩ :=
    Relation.ReflTransGen.tail
      (Relation.ReflTransGen.tail Relation.ReflTransGen.refl s1) s2
  exact ⟨hreach, (redundant_total_bytes_relation 1 _ hreach).2.1⟩

/-- C10 counterexample: a progress line emitted while a worker sits between
its totalBytes and redundantBytes additions reports redundantBytes 0 but
totalBytes 125829120 (the redundantSize of a one byte object at 10 of 30
shards), and in that reachable state the two counters differ, refuting
that the counters agree at every snapshot and that the two log fields are
always equal. -/
theorem redundant_total_bytes_race_counterexample :
    TBReachable 1 ⟨125829120, 0, [125829120], none, [(0, 125829120)]⟩ ∧
    redundantSize 1 10 30 = 125829120 ∧
    ¬ ((⟨125829120, 0, [125829120], none, [(0, 125829120)]⟩ : TBState).tb =
        (⟨125829120, 0, [125829120], none, [(0, 125829120)]⟩ : TBState).rb) ∧
    ∃ p ∈ (⟨125829120, 0, [125829120], none, [(0, 125829120)]⟩ : TBState).logged,
      p.1 ≠ p.2 := by
  refine ⟨?_, ?_, by norm_num, ⟨(0, 125829120), by simp, by norm_num⟩⟩
  · have s1 : TBStep 1 ⟨0, 0, [], none, []⟩ ⟨125829120, 0, [125829120], none, []⟩ :=
      TBStep.addTB ⟨0, 0, [], none, []⟩ 125829120 (by norm_num)
    have s2 : TBStep 1 ⟨125829120, 0, [125829120], none, []⟩
        ⟨125829120, 0, [125829120], some 0, []⟩ :=
      TBStep.loadRB ⟨125829120, 0, [125829120], none, []⟩ rfl
    have s3 : TBStep 1 ⟨125829120, 0, [125829120], some 0, []⟩
        ⟨125829120, 0, [125829120], none, [(0, 125829120)]⟩ :=
      TBStep.loadTB ⟨125829120, 0, [125829120], some 0, []⟩ 0 rfl
    exact Relation.ReflTransGen.tail
      (Relation.ReflTransGen.tail
        (Relation.ReflTransGen.tail Relation.ReflTransGen.refl s1) s2) s3
  · have h := redundantSize_eq_exact 1 10 30 (by norm_num) (by norm_num)
      (by norm_num) (by norm_num)
    rw [h]
    norm_num [redundantSizeExact, sectorSize]

end Mirror
